import Mathlib

/-!
Shallow embedding of the Edu_Share application (`src/app.py`): the data model
(User/Folder/Resource/Review rows plus the upload directory), and the route
handlers that the specification's claims are about, modelled as pure functions
from an explicit application state.  Database rows are lists of records;
SQLAlchemy queries become list filters/finds; handlers return `Except Err`
to model the HTTP error outcomes (404/403/flash messages).
-/

namespace EduShare

/-- A `Folder` row (`class Folder`, app.py lines 45-51): id, name, optional
parent folder id, owning user id. -/
structure Folder where
  id : Nat
  name : String
  parent_id : Option Nat
  owner_id : Nat
deriving DecidableEq, Repr

/-- A `Resource` row (`class Resource`, app.py lines 53-67): id, metadata,
stored filename, uploader id, optional containing folder id. -/
structure Resource where
  id : Nat
  title : String
  author : String
  subject : String
  filename : String
  uploader_id : Nat
  folder_id : Option Nat
deriving DecidableEq, Repr

/-- A `Review` row (`class Review`, app.py lines 75-85): rating, comment,
authoring user id, target resource id. -/
structure Review where
  rating : Int
  comment : String
  user_id : Nat
  resource_id : Nat
deriving DecidableEq, Repr

/-- The persistent state: the four relational tables that the claims touch
(`User` rows carry nothing the claims need beyond their ids, which appear as
`owner_id`/`uploader_id`/`user_id` foreign keys) plus the flat upload
directory (`UPLOAD_FOLDER`) as a list of stored filenames. -/
structure AppState where
  folders : List Folder
  resources : List Resource
  reviews : List Review
  files : List String
deriving DecidableEq, Repr

/-- Error outcomes a route can produce: `abort(404)`/`first_or_404`,
`abort(403)`, and the flash-message rejections. -/
inductive Err where
  | notFound
  | forbidden
  | notEmpty
  | noFile
  | unsupportedType
deriving DecidableEq, Repr

/-- All `Review` rows for the (user, resource) pair, i.e. the rows the unique
constraint `uix_user_resource` ranges over. -/
def reviewsFor (st : AppState) (uid rid : Nat) : List Review :=
  st.reviews.filter (fun v => v.user_id == uid && v.resource_id == rid)

/-- All `Review` rows of a resource (the `Resource.reviews` relationship). -/
def reviewsOf (st : AppState) (rid : Nat) : List Review :=
  st.reviews.filter (fun v => v.resource_id == rid)

/-- Replace the first element satisfying `p` by its image under `f`;
models SQLAlchemy's `existing = ...first()` followed by in-place mutation of
that one row. -/
def updateFirst (l : List Review) (p : Review → Bool) (f : Review → Review) :
    List Review :=
  match l with
  | [] => []
  | x :: xs => if p x then f x :: xs else x :: updateFirst xs p f

/-- `submit_review` (app.py lines 244-259): 404 unless the resource exists,
read the `rating` form field defaulting to 0 when absent, clamp it into
[1,10] via `max(1, min(10, rating))`, then upsert the (user, resource) row. -/
def submit_review (st : AppState) (uid rid : Nat) (ratingIn : Option Int)
    (comment : String) : Except Err AppState :=
  if (st.resources.find? (fun s => s.id == rid)).isSome then
    let rating := max 1 (min 10 (ratingIn.getD 0))
    let p : Review → Bool := fun v => v.user_id == uid && v.resource_id == rid
    if (st.reviews.find? p).isSome then
      let reviews := updateFirst st.reviews p
        (fun v => { v with rating := rating, comment := comment })
      .ok { st with reviews := reviews }
    else
      .ok { st with reviews :=
              st.reviews ++ [⟨rating, comment, uid, rid⟩] }
  else
    .error .notFound

/-- Round a rational to the nearest integer, ties to the even neighbour —
the semantics of Python's built-in `round`. -/
def roundHalfEven (q : ℚ) : ℤ :=
  let f := Int.floor q
  if 2 * (q - f) < 1 then f
  else if 1 < 2 * (q - f) then f + 1
  else if f % 2 = 0 then f else f + 1

/-- `round(x, 2)` : round to 2 decimal places. -/
def round2 (x : ℚ) : ℚ :=
  (roundHalfEven (x * 100) : ℚ) / 100

/-- `Resource.avg_rating` (app.py lines 69-73): `None` when the resource has
no reviews, else the mean of its reviews' ratings rounded to 2 decimals. -/
def avg_rating (st : AppState) (rid : Nat) : Option ℚ :=
  let rs := reviewsOf st rid
  if rs.isEmpty then none
  else some (round2 ((((rs.map Review.rating).sum : ℤ) : ℚ) / (rs.length : ℚ)))

/-- The `children` backref of a folder: folders whose `parent_id` is it. -/
def childrenOf (st : AppState) (fid : Nat) : List Folder :=
  st.folders.filter (fun c => c.parent_id == some fid)

/-- The `resources` backref of a folder: resources stored in it. -/
def resourcesIn (st : AppState) (fid : Nat) : List Resource :=
  st.resources.filter (fun r => r.folder_id == some fid)

/-- `Folder.query.filter_by(id=folder_id, owner_id=current_user.id).first()`:
the owner-scoped folder lookup shared by `folder_view` and `folder_delete`. -/
def findOwnedFolder (st : AppState) (uid fid : Nat) : Option Folder :=
  st.folders.find? (fun f => f.id == fid && f.owner_id == uid)

/-- The `parent` relationship: the folder row referenced by `parent_id`. -/
def parentOf (st : AppState) (f : Folder) : Option Folder :=
  f.parent_id.bind (fun pid => st.folders.find? (fun g => g.id == pid))

/-- The `while folder: crumbs.append(folder); folder = folder.parent` loop of
`get_breadcrumbs` (app.py lines 133-138), walking upward from `f`; `fuel`
bounds the number of iterations (the Python loop is unbounded and relies on
acyclicity), `none` meaning the fuel ran out before reaching a root. -/
def chainUp (st : AppState) : Nat → Folder → Option (List Folder)
  | 0, _ => none
  | n + 1, f =>
    match parentOf st f with
    | none => some [f]
    | some g => (chainUp st n g).map (f :: ·)

/-- `get_breadcrumbs` (app.py lines 133-138): the reversed upward walk, i.e.
root first, the given folder last.  Fuel `st.folders.length + 1` iterations
suffice for any acyclic parent structure. -/
def get_breadcrumbs (st : AppState) (f : Folder) : Option (List Folder) :=
  (chainUp st (st.folders.length + 1) f).map List.reverse

/-- The data `folder_view` (app.py lines 147-155) renders: the folder, its
children, its resources, and its breadcrumbs. -/
structure FolderView where
  current : Folder
  children : List Folder
  resources : List Resource
  crumbs : Option (List Folder)
deriving DecidableEq, Repr

/-- `folder_view` (app.py lines 147-155): owner-scoped lookup, 404 when the
folder does not exist for this owner, else render its contents. -/
def folder_view (st : AppState) (uid fid : Nat) : Except Err FolderView :=
  match findOwnedFolder st uid fid with
  | none => .error .notFound
  | some f =>
    .ok ⟨f, childrenOf st f.id, resourcesIn st f.id, get_breadcrumbs st f⟩

/-- `folder_delete` (app.py lines 171-181): owner-scoped lookup (404), reject
when the folder has any child folder or resource, else delete the row. -/
def folder_delete (st : AppState) (uid fid : Nat) : Except Err AppState :=
  match findOwnedFolder st uid fid with
  | none => .error .notFound
  | some f =>
    if !(childrenOf st f.id).isEmpty || !(resourcesIn st f.id).isEmpty then
      .error .notEmpty
    else
      .ok { st with folders := st.folders.erase f }

/-- `ALLOWED_EXTENSIONS` (app.py line 184), each extension as a char list. -/
def ALLOWED_EXTENSIONS : List (List Char) :=
  ["pdf".toList, "txt".toList, "md".toList, "zip".toList, "mp4".toList,
   "avi".toList, "mkv".toList, "mov".toList, "doc".toList, "docx".toList,
   "ppt".toList, "pptx".toList, "xls".toList, "xlsx".toList, "csv".toList,
   "png".toList, "jpg".toList, "jpeg".toList, "gif".toList, "webm".toList,
   "webp".toList]

/-- `filename.rsplit('.', 1)[1].lower()`: the part after the last dot,
lowercased (meaningful only when the name contains a dot). -/
def lowerExt (filename : String) : List Char :=
  ((filename.toList.reverse.takeWhile (fun c => c ≠ '.')).reverse).map
    Char.toLower

/-- `allowed_file` (app.py lines 186-187): the name contains a dot and the
lowercased final extension is in the allow-list. -/
def allowed_file (filename : String) : Bool :=
  filename.toList.contains '.' && ALLOWED_EXTENSIONS.contains (lowerExt filename)

/-- Outcome of the `upload` gate (app.py lines 196-203). -/
inductive UploadOutcome where
  | noFile
  | unsupportedType
  | accepted
deriving DecidableEq, Repr

/-- The acceptance gate of `upload` (app.py lines 197-203): reject when no
file was sent or its name is empty, reject a disallowed extension, else
proceed to save. -/
def upload_gate (file : Option String) : UploadOutcome :=
  match file with
  | none => .noFile
  | some name =>
    if name == "" then .noFile
    else if !allowed_file name then .unsupportedType
    else .accepted

/-- `resource_delete` (app.py lines 228-241): 404 when the resource does not
exist, 403 when the requester is not the uploader, else remove the backing
file if present (`FileNotFoundError` is swallowed), delete the catalog row,
and cascade-delete its reviews (`cascade="all, delete-orphan"` on line 67). -/
def resource_delete (st : AppState) (uid rid : Nat) : Except Err AppState :=
  match st.resources.find? (fun s => s.id == rid) with
  | none => .error .notFound
  | some res =>
    if res.uploader_id ≠ uid then .error .forbidden
    else
      .ok { st with
        files := st.files.erase res.filename
        resources := st.resources.erase res
        reviews := st.reviews.filter (fun v => !(v.resource_id == res.id)) }

/-- Does `hay` start with `needle`? -/
def leadMatch : List Char → List Char → Bool
  | [], _ => true
  | _ :: _, [] => false
  | a :: as, b :: bs => a == b && leadMatch as bs

/-- Does `hay` contain `needle` as a contiguous run? -/
def hasSub (needle : List Char) : List Char → Bool
  | [] => needle.isEmpty
  | c :: t => leadMatch needle (c :: t) || hasSub needle t

/-- SQL `ilike '%pat%'`: case-insensitive substring containment, the filter
`search` applies to title/author/subject (app.py lines 271-277). -/
def ciContains (hay pat : String) : Bool :=
  hasSub (pat.toList.map Char.toLower) (hay.toList.map Char.toLower)

/-- The sort key of `results.sort(key=lambda r: (r.avg_rating or 0), ...)`
(app.py line 281): the average rating, or 0 when it is absent. -/
def ratingKey (st : AppState) (r : Resource) : ℚ :=
  (avg_rating st r.id).getD 0

/-- The comparator-level order of `sort(key=..., reverse=True)`: descending
by `ratingKey`. -/
def ratingGE (st : AppState) (a b : Resource) : Prop :=
  ratingKey st b ≤ ratingKey st a

instance (st : AppState) : DecidableRel (ratingGE st) :=
  fun a b => inferInstanceAs (Decidable (ratingKey st b ≤ ratingKey st a))

instance (st : AppState) : IsTotal Resource (ratingGE st) :=
  ⟨fun a b => le_total (ratingKey st b) (ratingKey st a)⟩

instance (st : AppState) : IsTrans Resource (ratingGE st) :=
  ⟨fun _ _ _ h1 h2 => le_trans h2 h1⟩

/-- `results.sort(key=lambda r: (r.avg_rating or 0), reverse=True)`: a stable
sort, descending by average rating (no reviews counting as 0). -/
def sortByRating (st : AppState) (l : List Resource) : List Resource :=
  l.insertionSort (ratingGE st)

/-- `search` (app.py lines 262-283): apply each non-empty field as a
case-insensitive substring filter, then sort by rating when
`sort == "rating"`.  The arguments stand for the query-string fields after
the handler's `.strip()` at the request boundary. -/
def search (st : AppState) (q author subject sort : String) : List Resource :=
  let r1 := if q == "" then st.resources
            else st.resources.filter (fun r => ciContains r.title q)
  let r2 := if author == "" then r1
            else r1.filter (fun r => ciContains r.author author)
  let r3 := if subject == "" then r2
            else r2.filter (fun r => ciContains r.subject subject)
  if sort == "rating" then sortByRating st r3 else r3

/-- Example state: one resource (id 1) and no reviews. -/
def exBase : AppState :=
  ⟨[], [⟨1, "Notes", "", "", "notes.pdf", 1, none⟩], [], []⟩

/-- Example state: resource 1 carrying reviews rated 2, 5 and 10. -/
def exRatings : AppState :=
  ⟨[], [⟨1, "Notes", "", "", "notes.pdf", 1, none⟩],
   [⟨2, "", 5, 1⟩, ⟨5, "", 6, 1⟩, ⟨10, "", 7, 1⟩], []⟩

/-- Example resource "Algebra Basics" (no reviews in `exSearch`). -/
def resBasics : Resource := ⟨1, "Algebra Basics", "", "", "b.pdf", 1, none⟩

/-- Example resource "Algebra Advanced" (rated 8 in `exSearch`). -/
def resAdvanced : Resource := ⟨2, "Algebra Advanced", "", "", "a.pdf", 1, none⟩

/-- Example state for search: "Algebra Basics" (no reviews) and
"Algebra Advanced" (one review rated 8). -/
def exSearch : AppState :=
  ⟨[], [resBasics, resAdvanced], [⟨8, "", 3, 2⟩], []⟩

/-- Example folder tree of user 4: root (id 1) ⊃ child (id 2) ⊃ leaf (id 3). -/
def exFolders : AppState :=
  ⟨[⟨1, "root", none, 4⟩, ⟨2, "child", some 1, 4⟩, ⟨3, "leaf", some 2, 4⟩],
   [], [], []⟩

/-- Example state for resource deletion: resource 1 of uploader 1 with two
reviews and its backing file present in the upload directory. -/
def exDelete : AppState :=
  ⟨[], [⟨1, "Notes", "", "", "notes.pdf", 1, none⟩],
   [⟨8, "", 3, 1⟩, ⟨5, "", 4, 1⟩], ["notes.pdf"]⟩

/-- A `find?` over a list whose only element satisfying `p` is `g`
returns `g`. -/
theorem find?_eq_some_of_unique {α : Type} (p : α → Bool) (l : List α) (g : α)
    (hg : g ∈ l) (hpg : p g = true) (huniq : ∀ x ∈ l, p x = true → x = g) :
    l.find? p = some g := by
  induction l with
  | nil => cases hg
  | cons x xs ih =>
    by_cases hx : p x = true
    · rw [List.find?_cons_of_pos _ hx]
      exact congrArg some (huniq x (List.mem_cons_self x xs) hx)
    · rw [List.find?_cons_of_neg _ (by simpa using hx)]
      rcases List.mem_cons.mp hg with h | h
      · exact absurd (h ▸ hpg) hx
      · exact ih h (fun y hy hpy => huniq y (List.mem_cons_of_mem _ hy) hpy)

/-- If the first `p`-match of `l` is `v` and `f` keeps `p` satisfied, then
filtering after `updateFirst` replaces that head match by `f v`. -/
theorem filter_updateFirst_self (p : Review → Bool) (f : Review → Review)
    (hf : ∀ w, p w = true → p (f w) = true) :
    ∀ (l : List Review) (v : Review) (t : List Review),
      l.filter p = v :: t → (updateFirst l p f).filter p = f v :: t := by
  intro l
  induction l with
  | nil => intro v t h; cases h
  | cons x xs ih =>
    intro v t h
    by_cases hx : p x = true
    · rw [List.filter_cons_of_pos hx] at h
      cases h
      simp only [updateFirst, if_pos hx]
      rw [List.filter_cons_of_pos (hf x hx)]
    · rw [List.filter_cons_of_neg (by simpa using hx)] at h
      simp only [updateFirst, if_neg hx]
      rw [List.filter_cons_of_neg (by simpa using hx)]
      exact ih v t h

/-- `updateFirst` does not disturb rows selected by a predicate `q` that is
disjoint from `p` and invariant under `f`. -/
theorem filter_updateFirst_other (p q : Review → Bool) (f : Review → Review)
    (hdisj : ∀ w, p w = true → q w = false) (hq : ∀ w, q (f w) = q w) :
    ∀ l : List Review, (updateFirst l p f).filter q = l.filter q := by
  intro l
  induction l with
  | nil => rfl
  | cons x xs ih =>
    by_cases hx : p x = true
    · simp only [updateFirst, if_pos hx]
      rw [List.filter_cons_of_neg (by simp [hq, hdisj x hx]),
        List.filter_cons_of_neg (by simp [hdisj x hx])]
    · simp only [updateFirst, if_neg hx]
      by_cases hqx : q x = true
      · rw [List.filter_cons_of_pos hqx, List.filter_cons_of_pos hqx, ih]
      · rw [List.filter_cons_of_neg (by simpa using hqx),
          List.filter_cons_of_neg (by simpa using hqx)]
        exact ih

/-- Full behaviour of one successful `submit_review`: assuming the resource
exists and the unique-constraint invariant holds, the call succeeds, the
(u, r) pair afterwards holds exactly the clamped new row, every other pair is
untouched, the invariant is preserved, and no other table changes. -/
theorem submit_review_ok (st : AppState) (u r : Nat) (vin : Option Int)
    (c : String)
    (hres : (st.resources.find? (fun s => s.id == r)).isSome = true)
    (huniq : ∀ u' r', (reviewsFor st u' r').length ≤ 1) :
    ∃ st', submit_review st u r vin c = .ok st' ∧
      reviewsFor st' u r = [⟨max 1 (min 10 (vin.getD 0)), c, u, r⟩] ∧
      (∀ u' r', ¬(u' = u ∧ r' = r) → reviewsFor st' u' r' = reviewsFor st u' r') ∧
      (∀ u' r', (reviewsFor st' u' r').length ≤ 1) ∧
      st'.resources = st.resources ∧ st'.folders = st.folders ∧
      st'.files = st.files := by
  set p : Review → Bool := fun v => v.user_id == u && v.resource_id == r with hp
  set rating : Int := max 1 (min 10 (vin.getD 0)) with hrt
  have main : ∃ st', submit_review st u r vin c = .ok st' ∧
      reviewsFor st' u r = [⟨rating, c, u, r⟩] ∧
      (∀ u' r', ¬(u' = u ∧ r' = r) →
        reviewsFor st' u' r' = reviewsFor st u' r') ∧
      st'.resources = st.resources ∧ st'.folders = st.folders ∧
      st'.files = st.files := by
    cases he : st.reviews.find? p with
    | some v0 =>
      refine ⟨{ st with reviews := updateFirst st.reviews p (fun v => { v with rating := rating, comment := c }) }, ?_, ?_, ?_, rfl, rfl, rfl⟩
      · simp only [submit_review, ← hp, ← hrt, hres, he, Option.isSome_some,
          if_true]
      · have hmem : v0 ∈ st.reviews.filter p :=
          List.mem_filter.mpr ⟨List.mem_of_find?_eq_some he, List.find?_some he⟩
        have hlen : (st.reviews.filter p).length ≤ 1 := huniq u r
        have hfil : st.reviews.filter p = [v0] := by
          rcases hfe : st.reviews.filter p with _ | ⟨w, t⟩
          · rw [hfe] at hmem; cases hmem
          · rw [hfe] at hmem hlen
            rcases t with _ | ⟨w2, t2⟩
            · rcases List.mem_singleton.mp hmem with rfl; rfl
            · simp at hlen
        have hids : v0.user_id = u ∧ v0.resource_id = r := by
          have := List.find?_some he
          simp [hp] at this
          exact this
        have := filter_updateFirst_self p
          (fun w => { w with rating := rating, comment := c })
          (fun w hw => hw) st.reviews v0 [] hfil
        show (updateFirst st.reviews p _).filter p = _
        rw [this]
        simp [hids.1, hids.2]
      · intro u' r' hne
        have hdisj : ∀ w : Review, p w = true →
            (fun v : Review => v.user_id == u' && v.resource_id == r') w = false := by
          intro w hw
          simp [hp] at hw
          simp [hw.1, hw.2]
          omega
        show (updateFirst st.reviews p _).filter _ = _
        rw [filter_updateFirst_other p
          (fun v => v.user_id == u' && v.resource_id == r')
          (fun v => { v with rating := rating, comment := c }) hdisj
          (fun w => rfl)]
        rfl
    | none =>
      refine ⟨{ st with reviews := st.reviews ++ [⟨rating, c, u, r⟩] }, ?_,
        ?_, ?_, rfl, rfl, rfl⟩
      · simp only [submit_review, ← hp, ← hrt, hres, he, Option.isSome_none,
          if_true, Bool.false_eq_true, if_false]
      · show (st.reviews ++ [(⟨rating, c, u, r⟩ : Review)]).filter p = _
        rw [List.filter_append,
          List.filter_eq_nil_iff.mpr (List.find?_eq_none.mp he)]
        simp [hp]
      · intro u' r' hne
        show (st.reviews ++ [(⟨rating, c, u, r⟩ : Review)]).filter _ = _
        rw [List.filter_append]
        have hnew : (fun v : Review => v.user_id == u' && v.resource_id == r')
            ⟨rating, c, u, r⟩ = false := by
          simp
          omega
        simp only [List.filter_cons, hnew, Bool.false_eq_true, if_false,
          List.filter_nil, List.append_nil]
        rfl
  obtain ⟨st', h1, h2, h3, h4, h5, h6⟩ := main
  refine ⟨st', h1, h2, h3, ?_, h4, h5, h6⟩
  intro u' r'
  by_cases hx : u' = u ∧ r' = r
  · rcases hx with ⟨rfl, rfl⟩
    rw [h2]
    exact le_refl 1
  · rw [h3 u' r' hx]
    exact huniq u' r'

/-- C1: at most one Review row per (user, resource) pair: a submission when
a row exists for the pair overwrites it in place (upsert, not append), the
uniqueness invariant is preserved, and after `submit(u, r, rating=3)` then
`submit(u, r, rating=9)` exactly one Review row exists for (u, r) and its
rating is 9. -/
theorem review_upsert_unique (st : AppState) (u r : Nat) (v : Int) (c : String)
    (hres : (st.resources.find? (fun s => s.id == r)).isSome = true)
    (huniq : ∀ u' r', (reviewsFor st u' r').length ≤ 1) :
    (∃ st', submit_review st u r (some v) c = .ok st' ∧
       (reviewsFor st' u r).length = 1 ∧
       (∀ u' r', (reviewsFor st' u' r').length ≤ 1)) ∧
    (∀ c₁ c₂ st₁ st₂, submit_review st u r (some 3) c₁ = .ok st₁ →
       submit_review st₁ u r (some 9) c₂ = .ok st₂ →
       reviewsFor st₂ u r = [⟨9, c₂, u, r⟩]) := by
  constructor
  · obtain ⟨st', h1, h2, _, h4, _⟩ := submit_review_ok st u r (some v) c hres huniq
    exact ⟨st', h1, by rw [h2]; rfl, h4⟩
  · intro c₁ c₂ st₁ st₂ hs1 hs2
    obtain ⟨sa, hA, hB, _, hD, hE, _, _⟩ :=
      submit_review_ok st u r (some 3) c₁ hres huniq
    have hst1 : st₁ = sa := Except.ok.inj (hs1.symm.trans hA)
    subst hst1
    have hres1 : (st₁.resources.find? (fun s => s.id == r)).isSome = true := by
      rw [hE]; exact hres
    obtain ⟨sb, gA, gB, _, _, _, _, _⟩ :=
      submit_review_ok st₁ u r (some 9) c₂ hres1 hD
    have hst2 : st₂ = sb := Except.ok.inj (hs2.symm.trans gA)
    subst hst2
    rw [gB]
    norm_num

/-- C1 witness at a concrete state. -/
theorem review_upsert_unique_witness :
    ∃ st', submit_review exBase 7 1 (some 5) "nice" = .ok st' ∧
      (reviewsFor st' 7 1).length = 1 :=
  let h := review_upsert_unique exBase 7 1 5 "nice" (by decide)
    (fun u2 r2 => by simp [reviewsFor, exBase])
  ⟨h.1.choose, h.1.choose_spec.1, h.1.choose_spec.2.1⟩

/-- C2: for every integer rating input, submit stores the rating clamped
into [1,10] and never rejects on range: 15 stores 10, -3 stores 1, in-range
inputs are stored unchanged. -/
theorem rating_clamped (st : AppState) (u r : Nat) (v : Int) (c : String)
    (hres : (st.resources.find? (fun s => s.id == r)).isSome = true)
    (huniq : ∀ u' r', (reviewsFor st u' r').length ≤ 1) :
    ∃ st', submit_review st u r (some v) c = .ok st' ∧
      reviewsFor st' u r = [⟨max 1 (min 10 v), c, u, r⟩] ∧
      (∀ w ∈ reviewsFor st' u r, 1 ≤ w.rating ∧ w.rating ≤ 10) ∧
      (v = 15 → reviewsFor st' u r = [⟨10, c, u, r⟩]) ∧
      (v = -3 → reviewsFor st' u r = [⟨1, c, u, r⟩]) ∧
      (1 ≤ v → v ≤ 10 → reviewsFor st' u r = [⟨v, c, u, r⟩]) := by
  obtain ⟨st', h1, h2, _, _, _⟩ := submit_review_ok st u r (some v) c hres huniq
  simp only [Option.getD_some] at h2
  refine ⟨st', h1, h2, ?_, ?_, ?_, ?_⟩
  · intro w hw
    rw [h2] at hw
    rcases List.mem_singleton.mp hw with rfl
    exact ⟨le_max_left _ _, max_le (by norm_num) (min_le_left _ _)⟩
  · rintro rfl
    rw [h2]
    norm_num
  · rintro rfl
    rw [h2]
    norm_num
  · intro hv1 hv10
    rw [h2, min_eq_right hv10, max_eq_right hv1]

/-- C2 witness at a concrete state with an out-of-range rating. -/
theorem rating_clamped_witness :
    ∃ st', submit_review exBase 7 1 (some 15) "w" = .ok st' ∧
      reviewsFor st' 7 1 = [⟨10, "w", 7, 1⟩] :=
  let h := rating_clamped exBase 7 1 15 "w" (by decide) (fun u2 r2 => by simp [reviewsFor, exBase])
  ⟨h.choose, h.choose_spec.1, h.choose_spec.2.2.2.1 rfl⟩

/-- C10: when the rating form field is absent, `submit_review` does not
reject: the missing value defaults to 0, the clamp raises it to 1, and a
review with rating 1 is stored. -/
theorem missing_rating_defaults (st : AppState) (u r : Nat) (c : String)
    (hres : (st.resources.find? (fun s => s.id == r)).isSome = true)
    (huniq : ∀ u' r', (reviewsFor st u' r').length ≤ 1) :
    ∃ st', submit_review st u r none c = .ok st' ∧
      reviewsFor st' u r = [⟨1, c, u, r⟩] := by
  obtain ⟨st', h1, h2, _⟩ := submit_review_ok st u r none c hres huniq
  refine ⟨st', h1, ?_⟩
  rw [h2]
  norm_num

/-- C10 witness at a concrete state. -/
theorem missing_rating_defaults_witness :
    ∃ st', submit_review exBase 7 1 none "w" = .ok st' ∧
      reviewsFor st' 7 1 = [⟨1, "w", 7, 1⟩] :=
  missing_rating_defaults exBase 7 1 "w" (by decide) (fun u2 r2 => by simp [reviewsFor, exBase])

/-- C3: the average rating is absent (`none`, not zero) when a resource has
no reviews, and otherwise is the arithmetic mean of its reviews' ratings
rounded to 2 decimal places; ratings [2,5,10] give 5.67. -/
theorem avg_rating_spec (st : AppState) (rid : Nat) :
    (reviewsOf st rid = [] → avg_rating st rid = none) ∧
    (reviewsOf st rid ≠ [] →
      avg_rating st rid = some (round2
        (((((reviewsOf st rid).map Review.rating).sum : ℤ) : ℚ) /
          ((reviewsOf st rid).length : ℚ)))) ∧
    avg_rating exRatings 1 = some (567 / 100) := by
  refine ⟨?_, ?_, ?_⟩
  · intro h
    simp [avg_rating, h]
  · intro h
    simp [avg_rating, List.isEmpty_iff, h]
  · have hres : reviewsOf exRatings 1 =
        [⟨2, "", 5, 1⟩, ⟨5, "", 6, 1⟩, ⟨10, "", 7, 1⟩] := rfl
    have hfl : Int.floor ((1700 : ℚ) / 3) = 566 := by
      rw [Int.floor_eq_iff]
      norm_num
    have hrhe : roundHalfEven ((1700 : ℚ) / 3) = 567 := by
      rw [roundHalfEven, hfl]
      norm_num
    simp only [avg_rating, hres, List.isEmpty_cons, List.map_cons,
      List.map_nil, List.sum_cons, List.sum_nil, List.length_cons,
      List.length_nil, Bool.false_eq_true, if_false, round2]
    norm_num [hrhe]

/-- C3 witness: the nonempty case evaluated at the [2,5,10] example. -/
theorem avg_rating_spec_witness :
    avg_rating exRatings 1 = some (round2
      (((((reviewsOf exRatings 1).map Review.rating).sum : ℤ) : ℚ) /
        ((reviewsOf exRatings 1).length : ℚ))) :=
  (avg_rating_spec exRatings 1).2.1 (by decide)

/-- `allowed_file` holds exactly when the name has a dot and the lowercased
final extension is allow-listed. -/
theorem allowed_file_iff (name : String) :
    allowed_file name = true ↔
      (name.toList.contains '.' = true ∧ lowerExt name ∈ ALLOWED_EXTENSIONS) := by
  simp [allowed_file]

/-- The upload gate accepts exactly the nonempty names passing
`allowed_file`. -/
theorem upload_gate_accepted_iff (name : String) :
    upload_gate (some name) = .accepted ↔
      ((name == "") = false ∧ allowed_file name = true) := by
  by_cases h0 : (name == "") = true <;> by_cases h1 : allowed_file name = true <;>
    simp [upload_gate, h0, h1]

/-- C7: upload accepts a file exactly when its name contains a dot and its
final extension, lowercased, is allow-listed; `payload.exe` is rejected with
UnsupportedType, a dotless name is rejected, an absent or empty-named file is
rejected with NoFile, and `notes.pdf` is accepted. -/
theorem upload_acceptance :
    (∀ name : String, upload_gate (some name) = .accepted ↔
      (name.toList.contains '.' = true ∧ lowerExt name ∈ ALLOWED_EXTENSIONS)) ∧
    upload_gate (some "payload.exe") = .unsupportedType ∧
    (∀ name : String, name ≠ "" → name.toList.contains '.' = false →
      upload_gate (some name) = .unsupportedType) ∧
    upload_gate none = .noFile ∧
    upload_gate (some "") = .noFile ∧
    upload_gate (some "notes.pdf") = .accepted := by
  refine ⟨?_, by decide, ?_, rfl, by decide, by decide⟩
  · intro name
    rw [upload_gate_accepted_iff, allowed_file_iff]
    constructor
    · rintro ⟨-, h⟩
      exact h
    · rintro ⟨hc, hm⟩
      refine ⟨?_, hc, hm⟩
      by_contra hne
      have h0 : (name == "") = true := by simpa using hne
      have : name = "" := by simpa using h0
      subst this
      cases hc
  · intro name hne hc
    have h0 : (name == "") = false := by simpa using hne
    have hmem : '.' ∉ name.data := by simpa using hc
    have h1 : allowed_file name = false := by
      simp [allowed_file, hmem]
    simp [upload_gate, h0, h1]

/-- C7 witness: the dotless-name rejection applied at a concrete name. -/
theorem upload_acceptance_witness :
    upload_gate (some "noext") = .unsupportedType :=
  upload_acceptance.2.2.1 "noext" (by decide) (by decide)

/-- Under the primary-key invariant, the owner-scoped folder lookup finds
exactly the folder row itself. -/
theorem findOwnedFolder_mem (st : AppState) (uid : Nat) (g : Folder)
    (hg : g ∈ st.folders) (hown : g.owner_id = uid)
    (hids : ∀ a ∈ st.folders, ∀ b ∈ st.folders, a.id = b.id → a = b) :
    findOwnedFolder st uid g.id = some g := by
  apply find?_eq_some_of_unique _ _ g hg
  · simp [hown]
  · intro x hx hpx
    simp only [Bool.and_eq_true, beq_iff_eq] at hpx
    exact hids x hx g hg hpx.1

/-- C4: deleting an owned folder fails with NotEmpty whenever it has a child
folder or a contained resource, and succeeds when it has neither, after which
it is no longer in the folder table nor listed under any parent. -/
theorem folder_delete_spec (st : AppState) (uid : Nat) (g : Folder)
    (hg : g ∈ st.folders) (hown : g.owner_id = uid)
    (hids : ∀ a ∈ st.folders, ∀ b ∈ st.folders, a.id = b.id → a = b)
    (hnd : st.folders.Nodup) :
    (¬(childrenOf st g.id = [] ∧ resourcesIn st g.id = []) →
      folder_delete st uid g.id = .error .notEmpty) ∧
    (childrenOf st g.id = [] → resourcesIn st g.id = [] →
      ∃ st', folder_delete st uid g.id = .ok st' ∧
        st'.folders = st.folders.erase g ∧
        g ∉ st'.folders ∧
        (∀ pid : Option Nat,
          g ∉ st'.folders.filter (fun c => c.parent_id == pid)) ∧
        st'.resources = st.resources ∧ st'.reviews = st.reviews) := by
  have hfind := findOwnedFolder_mem st uid g hg hown hids
  have hgone : g ∉ st.folders.erase g := fun hmem =>
    ((List.Nodup.mem_erase_iff hnd).mp hmem).1 rfl
  constructor
  · intro hne
    have hcond : (!(childrenOf st g.id).isEmpty ||
        !(resourcesIn st g.id).isEmpty) = true := by
      rcases not_and_or.mp hne with h | h <;> simp [List.isEmpty_iff, h]
    simp [folder_delete, hfind, hcond]
  · intro hc hr
    refine ⟨{ st with folders := st.folders.erase g }, ?_, rfl, hgone, ?_, rfl, rfl⟩
    · simp [folder_delete, hfind, List.isEmpty_iff, hc, hr]
    · intro pid hmem
      exact hgone (List.mem_filter.mp hmem).1

/-- C4 witness: the root folder of the example tree has a child, so deleting
it is rejected with NotEmpty. -/
theorem folder_delete_spec_witness :
    folder_delete exFolders 4 1 = .error .notEmpty :=
  (folder_delete_spec exFolders 4 ⟨1, "root", none, 4⟩ (by decide) rfl
    (by decide) (by decide)).1 (by decide)

/-- C5: a folder belonging to another owner yields NotFound for both viewing
and deletion — never the other owner's contents, an empty listing, or
Forbidden. -/
theorem cross_owner_not_found (st : AppState) (uid : Nat) (g : Folder)
    (hg : g ∈ st.folders) (hne : g.owner_id ≠ uid)
    (hids : ∀ a ∈ st.folders, ∀ b ∈ st.folders, a.id = b.id → a = b) :
    folder_view st uid g.id = .error .notFound ∧
    folder_delete st uid g.id = .error .notFound := by
  have hfind : findOwnedFolder st uid g.id = none := by
    rw [findOwnedFolder, List.find?_eq_none]
    intro x hx
    simp only [Bool.and_eq_true, beq_iff_eq, not_and]
    intro hxid
    have hx' : x = g := hids x hx g hg hxid
    rw [hx']
    exact hne
  exact ⟨by simp [folder_view, hfind], by simp [folder_delete, hfind]⟩

/-- C5 witness: user 9 requesting user 4's root folder. -/
theorem cross_owner_not_found_witness :
    folder_view exFolders 9 1 = .error .notFound ∧
    folder_delete exFolders 9 1 = .error .notFound :=
  cross_owner_not_found exFolders 9 ⟨1, "root", none, 4⟩ (by decide)
    (by decide) (by decide)

/-- C6: resource deletion by a non-uploader fails with Forbidden; deletion by
the uploader removes the catalog row, cascades removal of the resource's
reviews, leaves unrelated reviews and folders untouched, and tolerates an
already-missing backing file (the upload directory is then unchanged). -/
theorem resource_delete_spec (st : AppState) (uid : Nat) (res : Resource)
    (hres : res ∈ st.resources)
    (hids : ∀ a ∈ st.resources, ∀ b ∈ st.resources, a.id = b.id → a = b)
    (hnd : st.resources.Nodup) :
    (res.uploader_id ≠ uid → resource_delete st uid res.id = .error .forbidden) ∧
    (res.uploader_id = uid →
      ∃ st', resource_delete st uid res.id = .ok st' ∧
        res ∉ st'.resources ∧
        (∀ s ∈ st'.resources, s.id ≠ res.id) ∧
        reviewsOf st' res.id = [] ∧
        (∀ u' r', r' ≠ res.id → reviewsFor st' u' r' = reviewsFor st u' r') ∧
        st'.folders = st.folders ∧
        (res.filename ∉ st.files → st'.files = st.files)) := by
  have hfind : st.resources.find? (fun s => s.id == res.id) = some res := by
    apply find?_eq_some_of_unique _ _ res hres (by simp)
    intro x hx hpx
    simp only [beq_iff_eq] at hpx
    exact hids x hx res hres hpx
  constructor
  · intro hno
    simp [resource_delete, hfind, hno]
  · intro hyes
    refine ⟨{ st with files := st.files.erase res.filename, resources := st.resources.erase res, reviews := st.reviews.filter (fun v => !(v.resource_id == res.id)) }, ?_, ?_, ?_, ?_, ?_, rfl, ?_⟩
    · simp [resource_delete, hfind, hyes]
    · intro hmem
      exact ((List.Nodup.mem_erase_iff hnd).mp hmem).1 rfl
    · intro s hs hsid
      have hs' : s ∈ st.resources := List.mem_of_mem_erase hs
      have : s = res := hids s hs' res hres hsid
      subst this
      exact ((List.Nodup.mem_erase_iff hnd).mp hs).1 rfl
    · apply List.filter_eq_nil_iff.mpr
      intro a ha
      have := (List.mem_filter.mp ha).2
      simpa using this
    · intro u' r' hr'
      show List.filter _ (List.filter _ st.reviews) = _
      rw [List.filter_filter]
      apply List.filter_congr
      intro a ha
      by_cases hap : (a.user_id == u' && a.resource_id == r') = true
      · have haid : a.resource_id = r' := by
          simp only [Bool.and_eq_true, beq_iff_eq] at hap
          exact hap.2
        have : (a.resource_id == res.id) = false := by
          simp [haid, hr']
        simp [hap, this]
      · simp only [Bool.not_eq_true] at hap
        simp [hap]
    · intro hnofile
      show st.files.erase res.filename = st.files
      exact List.erase_of_not_mem hnofile

/-- C6 witness: the uploader deletes resource 1; its two reviews are
cascade-removed. -/
theorem resource_delete_spec_witness :
    ∃ st', resource_delete exDelete 1 1 = .ok st' ∧ reviewsOf st' 1 = [] :=
  let h := (resource_delete_spec exDelete 1 ⟨1, "Notes", "", "", "notes.pdf", 1, none⟩ (by decide) (by decide) (by decide)).2 rfl
  ⟨h.choose, h.choose_spec.1, h.choose_spec.2.2.2.1⟩

/-- With `sort = "rating"` the search pipeline is exactly the unsorted
pipeline followed by the stable descending sort. -/
theorem search_rating_eq (st : AppState) (q a s : String) :
    search st q a s "rating" = sortByRating st (search st q a s "") := rfl

/-- C8: with `sort == "rating"` the returned sequence is ordered by average
rating descending, a resource with no reviews being compared as 0 inside the
sort key only (its average rating stays `none`); the result is a permutation
of the unsorted search results; and with "Algebra Basics" (no reviews) and
"Algebra Advanced" (average 8) matching, "Algebra Advanced" comes first. -/
theorem search_rating_sorted :
    (∀ (st : AppState) (q a s : String),
      List.Sorted (ratingGE st) (search st q a s "rating")) ∧
    (∀ (st : AppState) (q a s : String),
      (search st q a s "rating").Perm (search st q a s "")) ∧
    (∀ (st : AppState) (r : Resource), reviewsOf st r.id = [] →
      avg_rating st r.id = none ∧ ratingKey st r = 0) ∧
    (search exSearch "algebra" "" "" "rating").map Resource.title =
      ["Algebra Advanced", "Algebra Basics"] ∧
    avg_rating exSearch resBasics.id = none ∧
    avg_rating exSearch resAdvanced.id = some 8 := by
  have hkeyB : ratingKey exSearch resBasics = 0 := by
    simp [ratingKey, avg_rating, reviewsOf, exSearch, resBasics]
  have havgA : avg_rating exSearch resAdvanced.id = some 8 := by
    have hfl : Int.floor ((800 : ℚ)) = 800 := by
      rw [Int.floor_eq_iff]
      norm_num
    have hrhe : roundHalfEven ((800 : ℚ)) = 800 := by
      rw [roundHalfEven, hfl]
      norm_num
    have hrev : reviewsOf exSearch resAdvanced.id = [⟨8, "", 3, 2⟩] := rfl
    simp only [avg_rating, hrev, List.isEmpty_cons, List.map_cons,
      List.map_nil, List.sum_cons, List.sum_nil, List.length_cons,
      List.length_nil, Bool.false_eq_true, if_false, round2]
    norm_num [hrhe]
  have hkeyA : ratingKey exSearch resAdvanced = 8 := by
    rw [ratingKey, havgA]
    rfl
  refine ⟨?_, ?_, ?_, ?_, ?_, havgA⟩
  · intro st q a s
    rw [search_rating_eq]
    exact List.sorted_insertionSort _ _
  · intro st q a s
    rw [search_rating_eq]
    exact List.perm_insertionSort _ _
  · intro st r h
    constructor
    · simp [avg_rating, h]
    · simp [ratingKey, avg_rating, h]
  · have hstep : search exSearch "algebra" "" "" "rating" =
        List.insertionSort (ratingGE exSearch) [resBasics, resAdvanced] := rfl
    have hcmp : ¬ ratingGE exSearch resBasics resAdvanced := by
      rw [ratingGE, hkeyA, hkeyB]
      norm_num
    rw [hstep]
    simp only [List.insertionSort, List.orderedInsert, if_neg hcmp]
    rfl
  · simp [avg_rating, reviewsOf, exSearch, resBasics]

/-- C8 witness: the comparator-only clause applied to the review-less
resource of the search example. -/
theorem search_rating_sorted_witness :
    avg_rating exSearch resBasics.id = none ∧
    ratingKey exSearch resBasics = 0 :=
  search_rating_sorted.2.2.1 exSearch resBasics (by decide)

/-- A parent produced by `parentOf` is a row of the folder table. -/
theorem parentOf_mem (st : AppState) (f g : Folder)
    (h : parentOf st f = some g) : g ∈ st.folders := by
  rw [parentOf] at h
  rcases hf : f.parent_id with _ | pid
  · rw [hf] at h
    cases h
  · rw [hf] at h
    simp only [Option.some_bind] at h
    exact List.mem_of_find?_eq_some h

/-- The upward walk succeeds with enough fuel when the parent links admit a
decreasing rank, and yields the chain from the folder up to a root. -/
theorem chainUp_spec (st : AppState) (rank : Folder → Nat)
    (hrank : ∀ g ∈ st.folders, ∀ p, parentOf st g = some p → rank p < rank g) :
    ∀ (n : Nat) (f : Folder), f ∈ st.folders → rank f < n →
      ∃ c, chainUp st n f = some c ∧ c ≠ [] ∧ c.head? = some f ∧
        (∀ x, c.getLast? = some x → parentOf st x = none) ∧
        List.Chain' (fun a b => parentOf st a = some b) c := by
  intro n
  induction n with
  | zero => intro f _ h; omega
  | succ n ih =>
    intro f hf hflt
    cases hpar : parentOf st f with
    | none =>
      refine ⟨[f], ?_, by simp, rfl, ?_, by simp⟩
      · simp [chainUp, hpar]
      · intro x hx
        simp only [List.getLast?_singleton, Option.some.injEq] at hx
        rw [← hx]
        exact hpar
    | some g =>
      have hgmem : g ∈ st.folders := parentOf_mem st f g hpar
      have hn : rank g < n :=
        lt_of_lt_of_le (hrank f hf g hpar) (Nat.lt_succ_iff.mp hflt)
      obtain ⟨c, hc, hcne, hchead, hclast, hchain⟩ := ih g hgmem hn
      refine ⟨f :: c, ?_, by simp, rfl, ?_, ?_⟩
      · simp [chainUp, hpar, hc]
      · intro x hx
        rcases c with _ | ⟨y, ys⟩
        · exact absurd rfl hcne
        · rw [List.getLast?_cons_cons] at hx
          exact hclast x hx
      · rw [List.chain'_cons']
        refine ⟨?_, hchain⟩
        intro b hb
        rw [hchead] at hb
        simp only [Option.mem_some_iff] at hb
        rw [← hb]
        exact hpar

/-- C9: for an acyclic parent structure (witnessed by a rank that strictly
decreases along parent links and stays within the table size),
`get_breadcrumbs` terminates within its fuel and returns the folders from a
root down to the given folder: nonempty, root first (its parent is absent),
the given folder last, consecutive entries linked by the parent relation. -/
theorem get_breadcrumbs_spec (st : AppState) (rank : Folder → Nat) (f : Folder)
    (hf : f ∈ st.folders)
    (hrank : ∀ g ∈ st.folders, ∀ p, parentOf st g = some p → rank p < rank g)
    (hbound : ∀ g ∈ st.folders, rank g ≤ st.folders.length) :
    ∃ l, get_breadcrumbs st f = some l ∧ l ≠ [] ∧
      l.getLast? = some f ∧
      (∀ x, l.head? = some x → parentOf st x = none) ∧
      List.Chain' (fun a b => parentOf st b = some a) l := by
  obtain ⟨c, hc, hcne, hchead, hclast, hchain⟩ :=
    chainUp_spec st rank hrank (st.folders.length + 1) f hf
      (Nat.lt_succ_of_le (hbound f hf))
  refine ⟨c.reverse, ?_, by simpa using hcne, ?_, ?_, ?_⟩
  · rw [get_breadcrumbs, hc]
    rfl
  · rw [List.getLast?_reverse]
    exact hchead
  · intro x hx
    rw [List.head?_reverse] at hx
    exact hclast x hx
  · rw [List.chain'_reverse]
    exact hchain

/-- C9 witness: the three-level example tree with rank = id - 1. -/
theorem get_breadcrumbs_spec_witness :
    ∃ l, get_breadcrumbs exFolders ⟨3, "leaf", some 2, 4⟩ = some l ∧ l ≠ [] ∧
      l.getLast? = some ⟨3, "leaf", some 2, 4⟩ ∧
      (∀ x, l.head? = some x → parentOf exFolders x = none) ∧
      List.Chain' (fun a b => parentOf exFolders b = some a) l :=
  get_breadcrumbs_spec exFolders (fun g => g.id - 1) ⟨3, "leaf", some 2, 4⟩
    (by decide)
    (by intro g hg p hp
        fin_cases hg
        · exact Option.noConfusion hp
        · rw [show parentOf exFolders ⟨2, "child", some 1, 4⟩ =
            some ⟨1, "root", none, 4⟩ from rfl] at hp
          injection hp with h
          subst h
          decide
        · rw [show parentOf exFolders ⟨3, "leaf", some 2, 4⟩ =
            some ⟨2, "child", some 1, 4⟩ from rfl] at hp
          injection hp with h
          subst h
          decide)
    (by decide)

end EduShare
